import Mathlib

/-!
Verification of the fhir-to-brics pipeline (src/fhir_to_brics/utils.py and
src/fhir_to_brics/main.py) against its natural-language specification.

Modelling conventions (shallow embedding):
* A pandas row (Series) is an association list from column names to cell
  values; a cell is `Option String`, `none` standing for a missing value
  (NaN).  pandas guarantees that every row of a frame carries the frame's
  full column set, so looking a column up in a row only returns "absent"
  (outer `none`) outside the executions the theorems quantify over; the
  theorems carry explicit column-presence hypotheses where this matters.
* Rendering a cell inside a Python f-string turns NaN into the string
  "nan" (`str(float('nan'))`); `strOfCell` models this.
* HTTP traffic and JSON decoding are modelled by oracles: `Net` gives the
  outcome of `requests.get` (either a raised `RequestException`, which
  covers connection errors, timeouts and `raise_for_status`, or a response
  body) together with the behaviour of `json.loads` on a body; `Oracle`
  abstracts the two fetchers at the level used by the value-set parser,
  i.e. the value a non-raising fetch returns (`none` = fetch failed).
* The recursive value-set resolution of `parse_valueset_to_list` is given
  a fuel parameter; a run of the Python code that terminates corresponds
  to any sufficiently large fuel.  Fuel 0 returns `(None, None)` and
  performs no work.
* Python truthiness is modelled explicitly where the code relies on it:
  an empty string and `None` are falsy (`apiKeyTruthy`, the
  `if nested_values and nested_descriptions` check); a fetched dict is
  modelled as truthy when the fetch succeeded — the only falsy dict is
  the empty one, and parsing the empty dict contributes nothing, so the
  two readings of `if valueset:` agree observationally.
-/

/-! ### Rows and cells -/

/-- A cell of a pandas row: `none` is NaN / missing. -/
abbrev Cell := Option String

/-- A pandas row (Series): association list from column name to cell. -/
abbrev Row := List (String × Cell)

/-- HTTP headers, as a list of (name, value) pairs. -/
abbrev Headers := List (String × String)

/-- Look a column up in a row; absent column or NaN both give `none`.
The theorems that depend on the distinction carry `(List.lookup c row).isSome`
hypotheses so that only the faithful region of the model is used. -/
def getCell (r : Row) (c : String) : Option String :=
  (List.lookup c r).join

/-- Python str() rendering of a cell inside an f-string: NaN prints "nan". -/
def strOfCell : Option String → String
  | some s => s
  | none => "nan"

/-! ### create_variable_name (utils.py lines 75-95, Series branch) -/

/-- Core of Python str.rstrip(":") on the character list: remove every
trailing colon. -/
def rstripColonCore (l : List Char) : List Char :=
  (l.reverse.dropWhile (fun c => c = ':')).reverse

/-- Python str.rstrip(":"): strips all trailing colons. -/
def rstripColon (s : String) : String :=
  String.mk (rstripColonCore s.data)

/-- Python str.endswith(suffix), on the underlying character lists. -/
def strEndsWith (s suf : String) : Bool :=
  suf.data.isSuffixOf s.data

/-- utils.create_variable_name, Series branch: path = row["Path"],
slice = row["Slice Name"] when non-missing else "", then
f"{path}:{slice}".rstrip(":"). -/
def create_variable_name (row : Row) : String :=
  let path := strOfCell (getCell row "Path")
  let slice :=
    match getCell row "Slice Name" with
    | some s => s
    | none => ""
  rstripColon (path ++ ":" ++ slice)

/-! ### combine_columns_into_string (utils.py lines 98-123) -/

/-- A value of the columns_dict: Python allows a bare string, coerced to a
one-element list by the isinstance check in the source. -/
inductive ColsSpec where
  | single (c : String)
  | several (cs : List String)
deriving DecidableEq

/-- The column list a ColsSpec denotes (the isinstance coercion). -/
def ColsSpec.toList : ColsSpec → List String
  | .single c => [c]
  | .several cs => cs

/-- Inner loop of combine_columns_into_string: for each column, when the
cell is non-missing append "{prefix} {column}: {value}" to the accumulator
(combined_column_parts). -/
def appendColParts (row : Row) (pre : String) : List String → List String → List String
  | [], acc => acc
  | c :: rest, acc =>
    match getCell row c with
    | some v => appendColParts row pre rest (acc ++ [pre ++ " " ++ c ++ ": " ++ v])
    | none => appendColParts row pre rest acc

/-- Outer loop of combine_columns_into_string over columns_dict.values(). -/
def combineLoop (row : Row) (pre : String) : List ColsSpec → List String → List String
  | [], acc => acc
  | s :: rest, acc => combineLoop row pre rest (appendColParts row pre s.toList acc)

/-- utils.combine_columns_into_string: build the parts list in configured
order and join with the separator (Python defaults: prefix "FHIR",
sep " | "). -/
def combine_columns_into_string (row : Row) (columns_dict : List (String × ColsSpec))
    (pre : String) (sep : String) : String :=
  String.intercalate sep (combineLoop row pre (columns_dict.map Prod.snd) [])

/-! ### FHIR ValueSet model (the shape parse_valueset_to_list reads) -/

/-- One element of compose.include[i].concept: optional "code" and
"display" keys, read with .get(key, ""). -/
structure VSConcept where
  code : Option String
  display : Option String
deriving DecidableEq

/-- One element of compose.include: the "concept" key (list of concepts)
and the "valueSet" key (list of URIs) are each optionally present;
presence of an empty list is distinct from absence, as in a Python dict. -/
structure IncludeElem where
  concept : Option (List VSConcept)
  valueSet : Option (List String)
deriving DecidableEq

/-- A decoded value-set JSON object.  composeInclude is `some l` exactly
when "compose" is a key of the dict and "include" a key of its value. -/
structure ValueSet where
  composeInclude : Option (List IncludeElem)
deriving DecidableEq

/-! ### fetch_valueset dispatch (utils.py lines 171-187), oracle level -/

/-- Substring containment on lists (Python `needle in haystack` for str). -/
def listContainsSub [BEq α] (needle : List α) : List α → Bool
  | [] => needle.isEmpty
  | a :: rest => needle.isPrefixOf (a :: rest) || listContainsSub needle rest

/-- Python `"cts.nlm.nih.gov" in uri`: substring containment anywhere in
the URI string, not a host check. -/
def containsNlm (uri : String) : Bool :=
  listContainsSub "cts.nlm.nih.gov".data uri.data

/-- Python truthiness of the api_key argument: None and "" are falsy. -/
def apiKeyTruthy : Option String → Bool
  | none => false
  | some s => !(s == "")

/-- Fetch oracle at the level parse_valueset_to_list observes: the value a
non-raising call of fetch_nlm_valueset / fetch_fhir_valueset returns
(`none` = the fetch failed and the function returned None).  Executions in
which json.loads raises are treated by the Net-level model below. -/
structure Oracle where
  nlm : String → String → Option ValueSet
  fhir : String → Option Headers → Option ValueSet

/-- utils.fetch_valueset over the oracle: if "cts.nlm.nih.gov" is a
substring of the uri and api_key is truthy, fetch from NLM with the key,
else generic FHIR fetch with the given headers. -/
def fetch_valuesetO (o : Oracle) (uri : String) (hdrs : Option Headers)
    (key : Option String) : Option ValueSet :=
  if containsNlm uri && apiKeyTruthy key then o.nlm uri (key.getD "")
  else o.fhir uri hdrs

/-! ### Pipe join / split ("|".join and .split("|")) -/

/-- Python s.split("|") on character lists, with an accumulator for the
current (reversed) chunk. -/
def splitPipeCore : List Char → List Char → List (List Char)
  | [], acc => [acc.reverse]
  | c :: cs, acc =>
    if c = '|' then acc.reverse :: splitPipeCore cs []
    else splitPipeCore cs (c :: acc)

/-- Python s.split("|"). -/
def splitPipe (s : String) : List String :=
  (splitPipeCore s.data []).map String.mk

/-- Python "|".join on character lists. -/
def joinPipeCore : List (List Char) → List Char
  | [] => []
  | [l] => l
  | l :: ls => l ++ '|' :: joinPipeCore ls

/-- Python "|".join(strings). -/
def joinPipe (ls : List String) : String :=
  String.mk (joinPipeCore (ls.map String.data))

/-! ### parse_valueset_to_list (utils.py lines 190-235)

The loops append to the two shared lists permissible_values /
permissible_values_descriptions strictly in order, so each loop is modelled
by the pair of lists it contributes, concatenated in iteration order.  The
recursive call in the source is `parse_valueset_to_list(nested_valueset)`,
which leaves fhir_headers and nlm_api_key at their default None: the model
passes the parser specialised to `none none` down into the include loop. -/

/-- Contribution of one uri of an include["valueSet"] list: fetch, and when
the result is truthy parse it with the recursive parser p; splice the two
pipe-split strings in when both are truthy (non-None, non-empty). -/
def nestedContribution (p : ValueSet → Option String × Option String)
    (fetched : Option ValueSet) : List String × List String :=
  match fetched with
  | none => ([], [])
  | some nested =>
    match p nested with
    | (some nv, some nd) =>
      if nv == "" || nd == "" then ([], [])
      else (splitPipe nv, splitPipe nd)
    | _ => ([], [])

/-- Loop over include["valueSet"]. -/
def collectUris (p : ValueSet → Option String × Option String) (o : Oracle)
    (hdrs : Option Headers) (key : Option String) : List String → List String × List String
  | [] => ([], [])
  | uri :: rest =>
    let c := nestedContribution p (fetch_valuesetO o uri hdrs key)
    let r := collectUris p o hdrs key rest
    (c.1 ++ r.1, c.2 ++ r.2)

/-- One element of compose.include: `if "concept" in include: ...
elif "valueSet" in include: ...` — the concept branch has priority and
suppresses the valueSet branch entirely. -/
def collectInclude (p : ValueSet → Option String × Option String) (o : Oracle)
    (hdrs : Option Headers) (key : Option String) (inc : IncludeElem) :
    List String × List String :=
  match inc.concept with
  | some cs =>
    (cs.map (fun c => c.code.getD ""), cs.map (fun c => c.display.getD ""))
  | none =>
    match inc.valueSet with
    | some uris => collectUris p o hdrs key uris
    | none => ([], [])

/-- Loop over compose.include. -/
def collectIncludes (p : ValueSet → Option String × Option String) (o : Oracle)
    (hdrs : Option Headers) (key : Option String) : List IncludeElem → List String × List String
  | [] => ([], [])
  | inc :: rest =>
    let c := collectInclude p o hdrs key inc
    let r := collectIncludes p o hdrs key rest
    (c.1 ++ r.1, c.2 ++ r.2)

/-- utils.parse_valueset_to_list with explicit fuel for the recursion.
Returns (None, None) when either accumulated list is empty, else the two
pipe-joined strings. -/
def parse_valueset_to_list (o : Oracle) : Nat → Option Headers → Option String →
    ValueSet → Option String × Option String
  | 0, _, _, _ => (none, none)
  | fuel + 1, hdrs, key, vs =>
    let r := collectIncludes (parse_valueset_to_list o fuel none none) o hdrs key
      (vs.composeInclude.getD [])
    if r.1.isEmpty || r.2.isEmpty then (none, none)
    else (some (joinPipe r.1), some (joinPipe r.2))

/-- The pair of lists a call of parse_valueset_to_list at fuel+1
accumulates before joining (permissible_values,
permissible_values_descriptions). -/
def collectedLists (o : Oracle) (fuel : Nat) (hdrs : Option Headers)
    (key : Option String) (vs : ValueSet) : List String × List String :=
  collectIncludes (parse_valueset_to_list o fuel none none) o hdrs key
    (vs.composeInclude.getD [])

/-! ### Fetch-call instrumentation for parse_valueset_to_list

`parseFetchEvents` records, in call order, one event per invocation of
fetch_valueset made during parse_valueset_to_list, mirroring exactly the
traversal of the parser above: one event per uri of each reached
include["valueSet"] list, and the events of the recursive call (made with
fhir_headers and nlm_api_key left at their default None) whenever the
fetched value set is truthy.  `depth` is the uri-nesting depth: uris
listed in the value set handed to the top-level call have depth 1. -/

/-- One fetch_valueset invocation: viaNlm says whether the NLM branch was
taken; headersUsed is the headers argument the generic FHIR fetch received
(none when the NLM branch was taken, which builds its own auth header). -/
structure FetchEvent where
  uri : String
  viaNlm : Bool
  headersUsed : Option Headers
  depth : Nat
deriving DecidableEq

/-- The event of one fetch_valueset call, following the dispatch of
utils.fetch_valueset. -/
def mkFetchEvent (uri : String) (hdrs : Option Headers) (key : Option String)
    (depth : Nat) : FetchEvent :=
  if containsNlm uri && apiKeyTruthy key then ⟨uri, true, none, depth⟩
  else ⟨uri, false, hdrs, depth⟩

/-- Events of the loop over include["valueSet"]. -/
def fetchEventsUris (recEv : ValueSet → List FetchEvent) (o : Oracle)
    (hdrs : Option Headers) (key : Option String) (depth : Nat) :
    List String → List FetchEvent
  | [] => []
  | uri :: rest =>
    (mkFetchEvent uri hdrs key depth ::
      (match fetch_valuesetO o uri hdrs key with
       | some nested => recEv nested
       | none => [])) ++ fetchEventsUris recEv o hdrs key depth rest

/-- Events of one element of compose.include (none when the concept branch
is taken). -/
def fetchEventsInclude (recEv : ValueSet → List FetchEvent) (o : Oracle)
    (hdrs : Option Headers) (key : Option String) (depth : Nat)
    (inc : IncludeElem) : List FetchEvent :=
  match inc.concept with
  | some _ => []
  | none =>
    match inc.valueSet with
    | some uris => fetchEventsUris recEv o hdrs key depth uris
    | none => []

/-- Events of the loop over compose.include. -/
def fetchEventsIncludes (recEv : ValueSet → List FetchEvent) (o : Oracle)
    (hdrs : Option Headers) (key : Option String) (depth : Nat) :
    List IncludeElem → List FetchEvent
  | [] => []
  | inc :: rest =>
    fetchEventsInclude recEv o hdrs key depth inc ++
      fetchEventsIncludes recEv o hdrs key depth rest

/-- All fetch_valueset events of parse_valueset_to_list, in call order. -/
def parseFetchEvents (o : Oracle) : Nat → Nat → Option Headers → Option String →
    ValueSet → List FetchEvent
  | 0, _, _, _, _ => []
  | fuel + 1, depth, hdrs, key, vs =>
    fetchEventsIncludes (parseFetchEvents o fuel (depth + 1) none none) o hdrs key
      depth (vs.composeInclude.getD [])

/-! ### Net-level fetchers (utils.py lines 126-187)

fetch_fhir_valueset and fetch_nlm_valueset wrap requests.get and
raise_for_status in `try ... except requests.exceptions.RequestException`,
returning None on a caught exception; json.loads runs inside the try block
but raises json.JSONDecodeError (a ValueError), which the except clause
does not catch. -/

/-- Outcome of requests.get followed by raise_for_status: either a raised
RequestException (connection error, timeout, HTTP error status) or a
response body. -/
inductive HttpOutcome where
  | requestError
  | success (text : String)
deriving DecidableEq

/-- A raised exception that escapes the fetcher. -/
inductive PyExn where
  | jsonDecodeError
deriving DecidableEq

/-- The network and decoder as an oracle: get gives the outcome of
requests.get(uri, headers=headers, timeout=10); jsonLoads gives the
behaviour of json.loads on a body. -/
structure Net where
  get : String → Option Headers → HttpOutcome
  jsonLoads : String → Except PyExn ValueSet

/-- utils.fetch_fhir_valueset: GET with the given headers; a caught
RequestException returns None; json.loads of the body either yields the
decoded dict or raises (uncaught) a decode error. -/
def fetch_fhir_valueset (net : Net) (uri : String) (hdrs : Option Headers) :
    Except PyExn (Option ValueSet) :=
  match net.get uri hdrs with
  | .requestError => .ok none
  | .success t =>
    match net.jsonLoads t with
    | .ok v => .ok (some v)
    | .error e => .error e

/-- The base64 alphabet. -/
def base64Chars : List Char :=
  "ABCDEFGHIJKLMNOPQRSTUVWXYZabcdefghijklmnopqrstuvwxyz0123456789+/".data

/-- Character for a 6-bit group. -/
def b64Char (n : Nat) : Char := base64Chars.getD n 'A'

/-- Standard base64 of a byte list (values < 256), with padding. -/
def base64EncodeBytes : List Nat → List Char
  | [] => []
  | [b1] => [b64Char (b1 / 4), b64Char (b1 % 4 * 16), '=', '=']
  | [b1, b2] => [b64Char (b1 / 4), b64Char (b1 % 4 * 16 + b2 / 16),
      b64Char (b2 % 16 * 4), '=']
  | b1 :: b2 :: b3 :: rest =>
    b64Char (b1 / 4) :: b64Char (b1 % 4 * 16 + b2 / 16) ::
      b64Char (b2 % 16 * 4 + b3 / 64) :: b64Char (b3 % 64) ::
        base64EncodeBytes rest

/-- Python base64.b64encode(s.encode("utf-8")).decode("utf-8"). -/
def base64Encode (s : String) : String :=
  String.mk (base64EncodeBytes (s.toUTF8.toList.map (fun b => b.toNat)))

/-- The Authorization header fetch_nlm_valueset builds from the API key. -/
def nlmAuthHeader (apiKey : String) : Headers :=
  [("Authorization", "Basic " ++ base64Encode ("apikey:" ++ apiKey))]

/-- utils.fetch_nlm_valueset: GET with the basic-auth header built from the
API key; same try/except structure as fetch_fhir_valueset. -/
def fetch_nlm_valueset (net : Net) (uri apiKey : String) :
    Except PyExn (Option ValueSet) :=
  match net.get uri (some (nlmAuthHeader apiKey)) with
  | .requestError => .ok none
  | .success t =>
    match net.jsonLoads t with
    | .ok v => .ok (some v)
    | .error e => .error e

/-- utils.fetch_valueset: dispatch on substring containment of
"cts.nlm.nih.gov" in the uri and truthiness of api_key. -/
def fetch_valueset (net : Net) (uri : String) (hdrs : Option Headers)
    (key : Option String) : Except PyExn (Option ValueSet) :=
  if containsNlm uri && apiKeyTruthy key then
    fetch_nlm_valueset net uri (key.getD "")
  else fetch_fhir_valueset net uri hdrs

/-- A network oracle whose response reveals whether the request carried an
Authorization header; it serves to separate the two dispatch branches of
fetch_valueset on concrete inputs. -/
def netProbe : Net where
  get := fun _ hdrs =>
    match hdrs with
    | some hs =>
      if hs.any (fun p => p.1 == "Authorization") then .success "A"
      else .success "B"
    | none => .success "B"
  jsonLoads := fun t => if t == "A" then .ok ⟨some []⟩ else .ok ⟨none⟩

/-! ### process_resource_rows / process_extension_rows (utils.py 273-404)

Both functions contain the same value-set block: when the row's
"Binding Value Set" cell is non-missing, fetch_valueset is called on it
with fhir_headers and nlm_api_key, a truthy result is parsed (again with
fhir_headers and nlm_api_key), and the two strings are stored only when
both are truthy.  `resolvePV` models that shared block at oracle level. -/

/-- The permissible-values block: some (values, descriptions) exactly when
the fetch succeeded and parse_valueset_to_list returned two truthy
(non-None, non-empty) strings. -/
def resolvePV (o : Oracle) (fuel : Nat) (hdrs : Option Headers)
    (key : Option String) (bindingCell : Option String) :
    Option (String × String) :=
  match bindingCell with
  | none => none
  | some uri =>
    match fetch_valuesetO o uri hdrs key with
    | none => none
    | some vs =>
      match parse_valueset_to_list o fuel hdrs key vs with
      | (some pv, some pvd) =>
        if pv == "" || pvd == "" then none else some (pv, pvd)
      | _ => none

/-- The optional trailing permissible-value entries of a new_row dict. -/
def pvEntries (pv : Option (String × String)) : Row :=
  match pv with
  | some (v, d) => [("permissible values", some v),
      ("permissible value descriptions", some d)]
  | none => []

/-- The mapped composite text fields of a new_row, in mappings order: each
BRICS column is combine_columns_into_string of the source row under the
singleton dict {brics_column: resource_columns} with the Python defaults
prefix "FHIR" and sep " | ". -/
def mapRowFields (row : Row) (mappings : List (String × ColsSpec)) : Row :=
  mappings.map (fun m =>
    (m.1, some (combine_columns_into_string row [(m.1, m.2)] "FHIR" " | ")))

/-- One output row of process_extension_rows for a matching extension row:
variable name is f"{original_var_name}.{extension_id}", the composite text
fields are computed from the parent resource row, and the permissible
values are resolved from the extension row's own "Binding Value Set". -/
def buildExtRow (o : Oracle) (fuel : Nat) (hdrs : Option Headers)
    (key : Option String) (row : Row) (mappings : List (String × ColsSpec))
    (origName : String) (extRow : Row) : Row :=
  ("variable name", some (origName ++ "." ++ strOfCell (getCell extRow "Id"))) ::
    mapRowFields row mappings ++
      pvEntries (resolvePV o fuel hdrs key (getCell extRow "Binding Value Set"))

/-- utils.process_extension_rows.  The caller guarantees the row's
"Slice Name" is non-missing (guard at utils.py line 326); a missing value
would make pandas raise inside str.endswith, outside this model, as would
extension rows with missing "Profile" or "Id" (boolean masking on NA
raises), so the theorems carry the corresponding presence hypotheses. -/
def process_extension_rows (o : Oracle) (fuel : Nat) (row : Row)
    (df_extensions : List Row) (hdrs : Option Headers) (key : Option String)
    (mappings : List (String × ColsSpec)) : List Row :=
  let sliceName := strOfCell (getCell row "Slice Name")
  let origName := create_variable_name row
  let m1 := df_extensions.filter (fun e =>
    (getCell e "Profile").any (fun p => strEndsWith p sliceName))
  let m2 := m1.filter (fun e =>
    (getCell e "Id").any (fun i => strEndsWith i ".value[x]"))
  if m2.isEmpty then []
  else m2.map (buildExtRow o fuel hdrs key row mappings origName)

/-- The new_row built for one resource row (utils.py lines 296-320): the
derived variable name, the mapped composite fields, and the optional
permissible-value entries from the row's "Binding Value Set". -/
def buildResourceRow (o : Oracle) (fuel : Nat) (hdrs : Option Headers)
    (key : Option String) (row : Row) (mappings : List (String × ColsSpec)) : Row :=
  ("variable name", some (create_variable_name row)) ::
    mapRowFields row mappings ++
      pvEntries (resolvePV o fuel hdrs key (getCell row "Binding Value Set"))

/-- The rows one resource row contributes to df_mapped: its new_row,
followed by the extension rows exactly when its "Slice Name" is
non-missing (utils.py lines 322-330). -/
def process_one_row (o : Oracle) (fuel : Nat) (hdrs : Option Headers)
    (key : Option String) (df_extensions : List Row)
    (mappings : List (String × ColsSpec)) (row : Row) : List Row :=
  buildResourceRow o fuel hdrs key row mappings ::
    (match getCell row "Slice Name" with
     | some _ => process_extension_rows o fuel row df_extensions hdrs key mappings
     | none => [])

/-- utils.process_resource_rows: loop over the resource rows, appending
each new_row and then the extension rows of sliced rows, in order. -/
def process_resource_rows (o : Oracle) (fuel : Nat) (df_resource : List Row)
    (df_extensions : List Row) (mappings : List (String × ColsSpec))
    (hdrs : Option Headers) (key : Option String) : List Row :=
  df_resource.flatMap (process_one_row o fuel hdrs key df_extensions mappings)

/-! ### merge_with_template (utils.py 407-427) and the tail of main
(main.py 67-78) -/

/-- A pandas DataFrame: column list plus rows. -/
structure DF where
  cols : List String
  rows : List Row
deriving DecidableEq

/-- utils.merge_with_template: raise ValueError at the first df_mapped
column that is not a de_template column; otherwise pd.concat with
ignore_index, whose column set is the template's columns followed by the
mapped columns not already present (none, in the ok branch) and whose rows
are the template's rows followed by the mapped rows. -/
def merge_with_template (df_mapped de_template : DF) : Except String DF :=
  match df_mapped.cols.find? (fun c => !(de_template.cols.contains c)) with
  | some c => .error ("Column " ++ c ++ " in df_mapped is not in de_template.")
  | none =>
    .ok ⟨de_template.cols ++
        df_mapped.cols.filter (fun c => !(de_template.cols.contains c)),
      de_template.rows ++ df_mapped.rows⟩

/-- Outcome of the merge-and-save tail of main: either the ValueError from
merge_with_template propagates (and nothing is written), or the merged
frame is written to the output path. -/
inductive MainOutcome where
  | raised (msg : String)
  | wrote (path : String) (df : DF)
deriving DecidableEq

/-- main.py lines 67-78 after process_resource_rows: merge first, write
only afterwards; a raise in merge_with_template reaches the caller before
to_csv runs. -/
def main_merge_and_save (resource_name : String) (df_mapped de_template : DF) :
    MainOutcome :=
  match merge_with_template df_mapped de_template with
  | .error msg => .raised msg
  | .ok brics_des =>
    .wrote ("fhir_to_brics/output/" ++ resource_name ++ "_des.csv") brics_des

/-! ### Cleanliness predicates for the pipe-free correspondence claim -/

/-- A value set none of whose concepts has a pipe character in its
rendered code or display. -/
def CleanVS (vs : ValueSet) : Prop :=
  ∀ inc ∈ vs.composeInclude.getD [], ∀ c ∈ inc.concept.getD [],
    '|' ∉ (c.code.getD "").data ∧ '|' ∉ (c.display.getD "").data

/-- An oracle that only ever returns clean value sets. -/
def CleanOracle (o : Oracle) : Prop :=
  (∀ uri hdrs vs, o.fhir uri hdrs = some vs → CleanVS vs) ∧
  (∀ uri k vs, o.nlm uri k = some vs → CleanVS vs)

/-- Contract of a (recursive) parser on clean inputs: two truthy result
strings split into equally many pipe-separated entries. -/
def GoodParser (p : ValueSet → Option String × Option String) : Prop :=
  ∀ vs, CleanVS vs → ∀ v d, p vs = (some v, some d) → v ≠ "" → d ≠ "" →
    (splitPipe v).length = (splitPipe d).length

/-! ### Lemmas: combine_columns_into_string -/

theorem appendColParts_eq (row : Row) (pre : String) (cols : List String)
    (acc : List String) :
    appendColParts row pre cols acc =
      acc ++ cols.filterMap (fun c =>
        (getCell row c).map (fun v => pre ++ " " ++ c ++ ": " ++ v)) := by
  induction cols generalizing acc with
  | nil => simp [appendColParts]
  | cons c rest ih =>
    cases h : getCell row c with
    | some v => simp [appendColParts, h, ih, List.filterMap_cons]
    | none => simp [appendColParts, h, ih, List.filterMap_cons]

theorem combineLoop_eq (row : Row) (pre : String) (specs : List ColsSpec)
    (acc : List String) :
    combineLoop row pre specs acc =
      acc ++ specs.flatMap (fun s => s.toList.filterMap (fun c =>
        (getCell row c).map (fun v => pre ++ " " ++ c ++ ": " ++ v))) := by
  induction specs generalizing acc with
  | nil => simp [combineLoop]
  | cons s rest ih =>
    simp [combineLoop, ih, appendColParts_eq, List.flatMap_cons, List.append_assoc]

/-- C7: for every row and configured target field, the composite value is
the concatenation of "(prefix) (column): (value)" over that field's source
columns in configured order, restricted to non-missing cells, joined by
the separator; missing cells contribute no entry. -/
theorem C7_combine_columns (row : Row) (cfg : List (String × ColsSpec))
    (pre sep : String)
    (hpres : ∀ c ∈ (cfg.map Prod.snd).flatMap ColsSpec.toList,
      (List.lookup c row).isSome) :
    combine_columns_into_string row cfg pre sep =
      String.intercalate sep ((cfg.map Prod.snd).flatMap (fun s =>
        s.toList.filterMap (fun c =>
          (getCell row c).map (fun v => pre ++ " " ++ c ++ ": " ++ v)))) := by
  unfold combine_columns_into_string
  rw [combineLoop_eq]
  simp

theorem C7_combine_columns_witness :
    combine_columns_into_string [("A", some "1"), ("B", none), ("C", some "3")]
        [("t", ColsSpec.several ["A", "B", "C"])] "FHIR" " | " =
      String.intercalate " | "
        (([("t", ColsSpec.several ["A", "B", "C"])].map Prod.snd).flatMap (fun s =>
          s.toList.filterMap (fun c =>
            (getCell [("A", some "1"), ("B", none), ("C", some "3")] c).map
              (fun v => "FHIR" ++ " " ++ c ++ ": " ++ v)))) :=
  C7_combine_columns [("A", some "1"), ("B", none), ("C", some "3")]
    [("t", ColsSpec.several ["A", "B", "C"])] "FHIR" " | " (by decide)

/-! ### Lemmas: rstrip(":") and endswith -/

theorem strMk_data (s : String) : String.mk s.data = s := rfl

theorem data_ne_nil_of_ne_empty {s : String} (h : s ≠ "") : s.data ≠ [] := by
  intro hd
  exact h (by rw [← strMk_data s, hd])

theorem strEndsWith_colon_eq (t : String) :
    strEndsWith t ":" = List.isPrefixOf [':'] t.data.reverse := by
  rfl

theorem rstrip_of_not_endsWith_colon {t : String}
    (h : strEndsWith t ":" = false) : rstripColon t = t := by
  rw [strEndsWith_colon_eq] at h
  unfold rstripColon rstripColonCore
  rcases ht : t.data.reverse with _ | ⟨c, r⟩
  · have hdata : t.data = [] := by simpa using congrArg List.reverse ht
    conv_rhs => rw [← strMk_data t]
    rw [hdata]
    rfl
  · rw [ht] at h
    simp [List.isPrefixOf] at h
    have hc : ¬(c = ':') := fun hcc => h hcc.symm
    rw [List.dropWhile_cons]
    simp [hc]
    have h2 : t.data = r.reverse ++ [c] := by
      simpa using congrArg List.reverse ht
    conv_rhs => rw [← strMk_data t]
    rw [h2]

theorem strEndsWith_colon_append {p s : String} (h : s ≠ "") :
    strEndsWith (p ++ s) ":" = strEndsWith s ":" := by
  rw [strEndsWith_colon_eq, strEndsWith_colon_eq]
  have hd : (p ++ s).data = p.data ++ s.data := by simp
  rcases hs : s.data.reverse with _ | ⟨c, r⟩
  · exact absurd (by simpa using congrArg List.reverse hs)
      (data_ne_nil_of_ne_empty h)
  · rw [hd, List.reverse_append, hs]
    simp [List.isPrefixOf]

theorem rstrip_append_colon (t : String) :
    rstripColon (t ++ ":") = rstripColon t := by
  unfold rstripColon rstripColonCore
  have hd : (t ++ ":").data = t.data ++ [':'] := by simp
  rw [hd, List.reverse_append]
  simp [List.dropWhile_cons]

/-! ### Lemmas: rows produced by process_extension_rows -/

theorem getCell_cons_self (c : String) (v : Cell) (rest : Row) :
    getCell ((c, v) :: rest) c = v := by
  simp [getCell, List.lookup]

theorem mem_process_extension_rows {o : Oracle} {fuel : Nat} {row : Row}
    {exts : List Row} {hdrs : Option Headers} {key : Option String}
    {mappings : List (String × ColsSpec)} {r : Row}
    (h : r ∈ process_extension_rows o fuel row exts hdrs key mappings) :
    ∃ e ∈ exts,
      r = buildExtRow o fuel hdrs key row mappings (create_variable_name row) e := by
  simp only [process_extension_rows] at h
  split at h
  · exact absurd h (List.not_mem_nil r)
  · rcases List.mem_map.mp h with ⟨e, he, heq⟩
    exact ⟨e, (List.mem_filter.mp (List.mem_filter.mp he).1).1, heq.symm⟩

/-- C3 (amended): when Slice Name is present, nonempty and does not itself
end in a colon, the variable name is Path ++ ":" ++ SliceName; when Slice
Name is missing and Path does not end in a colon, it is Path (in general
rstrip(":") removes every trailing colon of the rendered
f"{path}:{slice}"); every extension-derived row's variable name is the
parent row's variable name followed by "." and the extension's Id. -/
theorem C3_variable_name (row : Row) (path slice : String) :
    (getCell row "Path" = some path → getCell row "Slice Name" = some slice →
      slice ≠ "" → strEndsWith slice ":" = false →
      create_variable_name row = path ++ ":" ++ slice) ∧
    (getCell row "Path" = some path → getCell row "Slice Name" = none →
      strEndsWith path ":" = false →
      create_variable_name row = path) ∧
    (∀ (o : Oracle) (fuel : Nat) (hdrs : Option Headers) (key : Option String)
      (exts : List Row) (mappings : List (String × ColsSpec)) (r : Row),
      r ∈ process_extension_rows o fuel row exts hdrs key mappings →
      ∃ e ∈ exts, getCell r "variable name" =
        some (create_variable_name row ++ "." ++ strOfCell (getCell e "Id"))) := by
  refine ⟨?_, ?_, ?_⟩
  · intro h1 h2 h3 h4
    simp only [create_variable_name, h1, h2, strOfCell]
    rw [rstrip_of_not_endsWith_colon]
    rw [strEndsWith_colon_append h3, h4]
  · intro h1 h2 h5
    simp only [create_variable_name, h1, h2, strOfCell]
    have he : path ++ ":" ++ "" = path ++ ":" := by simp
    rw [he, rstrip_append_colon, rstrip_of_not_endsWith_colon h5]
  · intro o fuel hdrs key exts mappings r hr
    rcases mem_process_extension_rows hr with ⟨e, he, heq⟩
    refine ⟨e, he, ?_⟩
    rw [heq]
    exact getCell_cons_self _ _ _

/-- C3 counterexample: the claim "the derived variable name equals Path
followed by a colon and the Slice Name when Slice Name is present" fails
when the slice name itself ends in a colon, because rstrip(":") also
strips it. -/
theorem C3_counterexample :
    create_variable_name [("Path", some "a"), ("Slice Name", some "b:")] = "a:b" ∧
    create_variable_name [("Path", some "a"), ("Slice Name", some "b:")] ≠
      "a" ++ ":" ++ "b:" := by
  constructor
  · decide
  · decide

theorem C3_variable_name_witness :
    create_variable_name [("Path", some "p"), ("Slice Name", some "sl")] =
        "p" ++ ":" ++ "sl" ∧
    create_variable_name [("Path", some "q"), ("Slice Name", none)] = "q" ∧
    ∃ e ∈ ([[("Profile", some "x.sl"), ("Id", some "E.value[x]")]] : List Row),
      getCell [("variable name", some "p:sl.E.value[x]")] "variable name" =
        some (create_variable_name [("Path", some "p"), ("Slice Name", some "sl")] ++
          "." ++ strOfCell (getCell e "Id")) := by
  refine ⟨?_, ?_, ?_⟩
  · exact (C3_variable_name [("Path", some "p"), ("Slice Name", some "sl")]
      "p" "sl").1 (by decide) (by decide) (by decide) (by decide)
  · exact (C3_variable_name [("Path", some "q"), ("Slice Name", none)]
      "q" "z").2.1 (by decide) (by decide) (by decide)
  · exact (C3_variable_name [("Path", some "p"), ("Slice Name", some "sl")]
      "p" "sl").2.2 ⟨fun _ _ => none, fun _ _ => none⟩ 0 none none
      [[("Profile", some "x.sl"), ("Id", some "E.value[x]")]] []
      [("variable name", some "p:sl.E.value[x]")] (by decide)

/-! ### Lemmas: "|".join and .split("|") -/

theorem splitPipeCore_ne_nil (cs : List Char) (acc : List Char) :
    splitPipeCore cs acc ≠ [] := by
  induction cs generalizing acc with
  | nil => simp [splitPipeCore]
  | cons c rest ih =>
    by_cases h : c = '|'
    · simp [splitPipeCore, h]
    · simp [splitPipeCore, h]
      exact ih _

theorem splitPipe_ne_nil (s : String) : splitPipe s ≠ [] := by
  unfold splitPipe
  simp [splitPipeCore_ne_nil]

theorem splitPipeCore_pipeFree {cs acc : List Char} (hacc : '|' ∉ acc) :
    ∀ l ∈ splitPipeCore cs acc, '|' ∉ l := by
  induction cs generalizing acc with
  | nil =>
    intro l hl
    simp [splitPipeCore] at hl
    simpa [hl] using fun hmem => hacc (List.mem_reverse.mp hmem)
  | cons c rest ih =>
    intro l hl
    by_cases h : c = '|'
    · simp [splitPipeCore, h] at hl
      rcases hl with hl | hl
      · simpa [hl] using fun hmem => hacc (List.mem_reverse.mp hmem)
      · exact ih (by simp) l hl
    · simp [splitPipeCore, h] at hl
      have hacc2 : '|' ∉ c :: acc := by
        intro hmem
        rcases List.mem_cons.mp hmem with h2 | h2
        · exact h h2.symm
        · exact hacc h2
      exact ih hacc2 l hl

theorem splitPipe_pipeFree (s : String) : ∀ t ∈ splitPipe s, '|' ∉ t.data := by
  intro t ht
  unfold splitPipe at ht
  rcases List.mem_map.mp ht with ⟨l, hl, rfl⟩
  exact splitPipeCore_pipeFree (by simp) l hl

theorem splitPipeCore_append_pipeFree {l : List Char} (hl : '|' ∉ l)
    (cs acc : List Char) :
    splitPipeCore (l ++ cs) acc = splitPipeCore cs (l.reverse ++ acc) := by
  induction l generalizing acc with
  | nil => simp
  | cons c rest ih =>
    have hc : ¬(c = '|') := fun h => hl (by simp [h])
    have hrest : '|' ∉ rest := fun h => hl (by simp [h])
    rw [List.cons_append]
    simp only [splitPipeCore]
    rw [if_neg hc, ih hrest]
    simp [List.append_assoc]

theorem splitPipeCore_joinPipeCore {ls : List (List Char)} (hne : ls ≠ [])
    (hfree : ∀ l ∈ ls, '|' ∉ l) :
    splitPipeCore (joinPipeCore ls) [] = ls := by
  induction ls with
  | nil => exact absurd rfl hne
  | cons l rest ih =>
    cases rest with
    | nil =>
      have hl : '|' ∉ l := hfree l (by simp)
      show splitPipeCore (joinPipeCore [l]) [] = [l]
      have : joinPipeCore [l] = l := rfl
      rw [this]
      have := splitPipeCore_append_pipeFree hl [] []
      simpa [splitPipeCore] using this
    | cons m rest2 =>
      have hl : '|' ∉ l := hfree l (by simp)
      have hjoin : joinPipeCore (l :: m :: rest2) = l ++ '|' :: joinPipeCore (m :: rest2) := rfl
      rw [hjoin, splitPipeCore_append_pipeFree hl, splitPipeCore]
      simp only [if_pos rfl]
      rw [ih (by simp) (fun x hx => hfree x (List.mem_cons_of_mem l hx))]
      simp

theorem map_mk_data (ls : List String) :
    List.map String.mk (List.map String.data ls) = ls := by
  induction ls with
  | nil => rfl
  | cons s t iht => simp only [List.map_cons, strMk_data, iht]

theorem splitPipe_joinPipe {ls : List String} (hne : ls ≠ [])
    (hfree : ∀ s ∈ ls, '|' ∉ s.data) :
    splitPipe (joinPipe ls) = ls := by
  unfold splitPipe joinPipe
  have hdata : (String.mk (joinPipeCore (ls.map String.data))).data =
      joinPipeCore (ls.map String.data) := rfl
  rw [hdata]
  rw [splitPipeCore_joinPipeCore (by simpa using hne)
    (by intro l hl; rcases List.mem_map.mp hl with ⟨s, hs, rfl⟩; exact hfree s hs)]
  exact map_mk_data ls

/-! ### Lemmas: the two accumulated lists are empty together -/

theorem nestedContribution_fst_nil_iff (p : ValueSet → Option String × Option String)
    (f : Option ValueSet) :
    ((nestedContribution p f).1 = [] ↔ (nestedContribution p f).2 = []) := by
  cases f with
  | none => simp [nestedContribution]
  | some nested =>
    rcases hp : p nested with ⟨a, b⟩
    simp only [nestedContribution]
    rw [hp]
    cases a with
    | none => simp
    | some nv =>
      cases b with
      | none => simp
      | some nd =>
        by_cases hv : nv = ""
        · simp [hv]
        · by_cases hd2 : nd = ""
          · simp [hv, hd2]
          · simp [hv, hd2, splitPipe_ne_nil]

theorem collectUris_fst_nil_iff (p : ValueSet → Option String × Option String)
    (o : Oracle) (hdrs : Option Headers) (key : Option String)
    (uris : List String) :
    ((collectUris p o hdrs key uris).1 = [] ↔ (collectUris p o hdrs key uris).2 = []) := by
  induction uris with
  | nil => simp [collectUris]
  | cons uri rest ih =>
    simp only [collectUris, List.append_eq_nil]
    constructor
    · rintro ⟨h1, h2⟩
      exact ⟨(nestedContribution_fst_nil_iff p _).mp h1, ih.mp h2⟩
    · rintro ⟨h1, h2⟩
      exact ⟨(nestedContribution_fst_nil_iff p _).mpr h1, ih.mpr h2⟩

theorem collectInclude_fst_nil_iff (p : ValueSet → Option String × Option String)
    (o : Oracle) (hdrs : Option Headers) (key : Option String)
    (inc : IncludeElem) :
    ((collectInclude p o hdrs key inc).1 = [] ↔
      (collectInclude p o hdrs key inc).2 = []) := by
  unfold collectInclude
  rcases inc with ⟨c, v⟩
  cases c with
  | some cs => simp
  | none =>
    cases v with
    | some uris => exact collectUris_fst_nil_iff p o hdrs key uris
    | none => simp

theorem collectIncludes_fst_nil_iff (p : ValueSet → Option String × Option String)
    (o : Oracle) (hdrs : Option Headers) (key : Option String)
    (incs : List IncludeElem) :
    ((collectIncludes p o hdrs key incs).1 = [] ↔
      (collectIncludes p o hdrs key incs).2 = []) := by
  induction incs with
  | nil => simp [collectIncludes]
  | cons inc rest ih =>
    simp only [collectIncludes, List.append_eq_nil]
    constructor
    · rintro ⟨h1, h2⟩
      exact ⟨(collectInclude_fst_nil_iff p o hdrs key inc).mp h1, ih.mp h2⟩
    · rintro ⟨h1, h2⟩
      exact ⟨(collectInclude_fst_nil_iff p o hdrs key inc).mpr h1, ih.mpr h2⟩

/-- C8: parse_valueset_to_list returns (None, None) exactly when the list
of codes collected from compose.include (directly or through nested
resolution) is empty; whenever at least one code was collected, it returns
two non-None strings. -/
theorem C8_empty_result (o : Oracle) (fuel : Nat) (hdrs : Option Headers)
    (key : Option String) (vs : ValueSet) :
    (parse_valueset_to_list o (fuel + 1) hdrs key vs = (none, none) ↔
      (collectedLists o fuel hdrs key vs).1 = []) ∧
    ((collectedLists o fuel hdrs key vs).1 ≠ [] →
      ∃ v d, parse_valueset_to_list o (fuel + 1) hdrs key vs = (some v, some d)) := by
  have hpr : parse_valueset_to_list o (fuel + 1) hdrs key vs =
      if (collectedLists o fuel hdrs key vs).1.isEmpty ||
          (collectedLists o fuel hdrs key vs).2.isEmpty then (none, none)
      else (some (joinPipe (collectedLists o fuel hdrs key vs).1),
        some (joinPipe (collectedLists o fuel hdrs key vs).2)) := rfl
  have hiff : (collectedLists o fuel hdrs key vs).1 = [] ↔
      (collectedLists o fuel hdrs key vs).2 = [] :=
    collectIncludes_fst_nil_iff _ o hdrs key _
  by_cases h1 : (collectedLists o fuel hdrs key vs).1 = []
  · have h2 := hiff.mp h1
    rw [hpr, h1, h2]
    simp
  · have h2 : (collectedLists o fuel hdrs key vs).2 ≠ [] :=
      fun hh => h1 (hiff.mpr hh)
    have e1 : (collectedLists o fuel hdrs key vs).1.isEmpty = false := by
      simpa [List.isEmpty_iff] using h1
    have e2 : (collectedLists o fuel hdrs key vs).2.isEmpty = false := by
      simpa [List.isEmpty_iff] using h2
    rw [hpr, e1, e2]
    refine ⟨by simp [h1], fun _ => ⟨joinPipe (collectedLists o fuel hdrs key vs).1,
      joinPipe (collectedLists o fuel hdrs key vs).2, by simp⟩⟩

theorem C8_empty_result_witness :
    (parse_valueset_to_list ⟨fun _ _ => none, fun _ _ => none⟩ 1 none none
        ⟨some [⟨some [⟨some "c", some "d"⟩], none⟩]⟩ = (none, none) ↔
      (collectedLists ⟨fun _ _ => none, fun _ _ => none⟩ 0 none none
        ⟨some [⟨some [⟨some "c", some "d"⟩], none⟩]⟩).1 = []) ∧
    ∃ v d, parse_valueset_to_list ⟨fun _ _ => none, fun _ _ => none⟩ 1 none none
        ⟨some [⟨some [⟨some "c", some "d"⟩], none⟩]⟩ = (some v, some d) :=
  ⟨(C8_empty_result ⟨fun _ _ => none, fun _ _ => none⟩ 0 none none
      ⟨some [⟨some [⟨some "c", some "d"⟩], none⟩]⟩).1,
    (C8_empty_result ⟨fun _ _ => none, fun _ _ => none⟩ 0 none none
      ⟨some [⟨some [⟨some "c", some "d"⟩], none⟩]⟩).2 (by decide)⟩

/-! ### Lemmas: concat structure of collectIncludes -/

theorem collectIncludes_congr_middle (p : ValueSet → Option String × Option String)
    (o : Oracle) (hdrs : Option Headers) (key : Option String)
    (pre post : List IncludeElem) (a b : IncludeElem)
    (hab : collectInclude p o hdrs key a = collectInclude p o hdrs key b) :
    collectIncludes p o hdrs key (pre ++ a :: post) =
      collectIncludes p o hdrs key (pre ++ b :: post) := by
  induction pre with
  | nil => simp [collectIncludes, hab]
  | cons i rest ih => simp [collectIncludes, ih]

/-- C9: when an element of compose.include carries both a concept list and
a valueSet list, only the literal concepts are used and the nested
valueSet URIs are ignored entirely (the elif makes the branches mutually
exclusive, with concept taking priority). -/
theorem C9_concept_priority (o : Oracle) (fuel : Nat) (hdrs : Option Headers)
    (key : Option String) (pre post : List IncludeElem) (cs : List VSConcept)
    (uris : List String) :
    parse_valueset_to_list o fuel hdrs key
        ⟨some (pre ++ ⟨some cs, some uris⟩ :: post)⟩ =
      parse_valueset_to_list o fuel hdrs key
        ⟨some (pre ++ ⟨some cs, none⟩ :: post)⟩ ∧
    ∀ p : ValueSet → Option String × Option String,
      collectInclude p o hdrs key ⟨some cs, some uris⟩ =
        (cs.map (fun c => c.code.getD ""), cs.map (fun c => c.display.getD "")) := by
  constructor
  · cases fuel with
    | zero => rfl
    | succ g =>
      simp only [parse_valueset_to_list, Option.getD_some]
      rw [collectIncludes_congr_middle (parse_valueset_to_list o g none none)
        o hdrs key pre post ⟨some cs, some uris⟩ ⟨some cs, none⟩ rfl]
  · intro p
    rfl

/-! ### Lemmas: clean inputs give parallel collected lists -/

theorem fetch_valuesetO_clean {o : Oracle} (hc : CleanOracle o)
    (uri : String) (hdrs : Option Headers) (key : Option String)
    {vs : ValueSet} (h : fetch_valuesetO o uri hdrs key = some vs) :
    CleanVS vs := by
  unfold fetch_valuesetO at h
  split at h
  · exact hc.2 _ _ _ h
  · exact hc.1 _ _ _ h

theorem nestedContribution_good {p : ValueSet → Option String × Option String}
    (hp : GoodParser p) {f : Option ValueSet}
    (hclean : ∀ vs, f = some vs → CleanVS vs) :
    (nestedContribution p f).1.length = (nestedContribution p f).2.length ∧
    (∀ t ∈ (nestedContribution p f).1, '|' ∉ t.data) ∧
    (∀ t ∈ (nestedContribution p f).2, '|' ∉ t.data) := by
  cases f with
  | none => simp [nestedContribution]
  | some nested =>
    rcases hpn : p nested with ⟨a, b⟩
    simp only [nestedContribution]
    rw [hpn]
    cases a with
    | none => simp
    | some nv =>
      cases b with
      | none => simp
      | some nd =>
        by_cases hv : nv = ""
        · simp [hv]
        · by_cases hd2 : nd = ""
          · simp [hv, hd2]
          · have hcond : (nv == "" || nd == "") = false := by simp [hv, hd2]
            simp only [hcond, Bool.false_eq_true, if_false]
            refine ⟨?_, ?_, ?_⟩
            · exact hp nested (hclean nested rfl) nv nd hpn hv hd2
            · exact splitPipe_pipeFree nv
            · exact splitPipe_pipeFree nd

theorem collectUris_good {o : Oracle}
    {p : ValueSet → Option String × Option String} (ho : CleanOracle o)
    (hp : GoodParser p) (hdrs : Option Headers) (key : Option String)
    (uris : List String) :
    (collectUris p o hdrs key uris).1.length =
        (collectUris p o hdrs key uris).2.length ∧
    (∀ t ∈ (collectUris p o hdrs key uris).1, '|' ∉ t.data) ∧
    (∀ t ∈ (collectUris p o hdrs key uris).2, '|' ∉ t.data) := by
  induction uris with
  | nil => simp [collectUris]
  | cons uri rest ih =>
    have hn := nestedContribution_good hp
      (f := fetch_valuesetO o uri hdrs key)
      (fun vs hf => fetch_valuesetO_clean ho uri hdrs key hf)
    simp only [collectUris, List.length_append, List.mem_append]
    refine ⟨by rw [hn.1, ih.1], ?_, ?_⟩
    · rintro t (ht | ht)
      · exact hn.2.1 t ht
      · exact ih.2.1 t ht
    · rintro t (ht | ht)
      · exact hn.2.2 t ht
      · exact ih.2.2 t ht

theorem collectInclude_good {o : Oracle}
    {p : ValueSet → Option String × Option String} (ho : CleanOracle o)
    (hp : GoodParser p) (hdrs : Option Headers) (key : Option String)
    (inc : IncludeElem)
    (hinc : ∀ c ∈ inc.concept.getD [],
      '|' ∉ (c.code.getD "").data ∧ '|' ∉ (c.display.getD "").data) :
    (collectInclude p o hdrs key inc).1.length =
        (collectInclude p o hdrs key inc).2.length ∧
    (∀ t ∈ (collectInclude p o hdrs key inc).1, '|' ∉ t.data) ∧
    (∀ t ∈ (collectInclude p o hdrs key inc).2, '|' ∉ t.data) := by
  rcases inc with ⟨c, v⟩
  cases c with
  | some cs =>
    simp only [collectInclude]
    refine ⟨by simp, ?_, ?_⟩
    · intro t ht
      rcases List.mem_map.mp ht with ⟨cc, hcc, rfl⟩
      exact (hinc cc (by simpa using hcc)).1
    · intro t ht
      rcases List.mem_map.mp ht with ⟨cc, hcc, rfl⟩
      exact (hinc cc (by simpa using hcc)).2
  | none =>
    cases v with
    | some uris => exact collectUris_good ho hp hdrs key uris
    | none => simp [collectInclude]

theorem collectIncludes_good {o : Oracle}
    {p : ValueSet → Option String × Option String} (ho : CleanOracle o)
    (hp : GoodParser p) (hdrs : Option Headers) (key : Option String)
    (incs : List IncludeElem)
    (hincs : ∀ inc ∈ incs, ∀ c ∈ inc.concept.getD [],
      '|' ∉ (c.code.getD "").data ∧ '|' ∉ (c.display.getD "").data) :
    (collectIncludes p o hdrs key incs).1.length =
        (collectIncludes p o hdrs key incs).2.length ∧
    (∀ t ∈ (collectIncludes p o hdrs key incs).1, '|' ∉ t.data) ∧
    (∀ t ∈ (collectIncludes p o hdrs key incs).2, '|' ∉ t.data) := by
  induction incs with
  | nil => simp [collectIncludes]
  | cons inc rest ih =>
    have h1 := collectInclude_good ho hp hdrs key inc
      (hincs inc (by simp))
    have h2 := ih (fun i hi => hincs i (List.mem_cons_of_mem inc hi))
    simp only [collectIncludes, List.length_append, List.mem_append]
    refine ⟨by rw [h1.1, h2.1], ?_, ?_⟩
    · rintro t (ht | ht)
      · exact h1.2.1 t ht
      · exact h2.2.1 t ht
    · rintro t (ht | ht)
      · exact h1.2.2 t ht
      · exact h2.2.2 t ht

theorem parse_goodParser (o : Oracle) (ho : CleanOracle o) :
    ∀ fuel, GoodParser (parse_valueset_to_list o fuel none none) := by
  intro fuel
  induction fuel with
  | zero =>
    intro vs _ v d hpd
    exact absurd hpd (by simp [parse_valueset_to_list])
  | succ g ih =>
    intro vs hcl v d hpd hv hd
    have hpr : parse_valueset_to_list o (g + 1) none none vs =
        if (collectedLists o g none none vs).1.isEmpty ||
            (collectedLists o g none none vs).2.isEmpty then (none, none)
        else (some (joinPipe (collectedLists o g none none vs).1),
          some (joinPipe (collectedLists o g none none vs).2)) := rfl
    rw [hpr] at hpd
    by_cases hL : ((collectedLists o g none none vs).1.isEmpty ||
        (collectedLists o g none none vs).2.isEmpty) = true
    · rw [if_pos hL] at hpd
      exact absurd hpd (by simp)
    · rw [if_neg hL] at hpd
      have hne1 : (collectedLists o g none none vs).1 ≠ [] := by
        intro hh
        exact hL (by simp [hh])
      have hne2 : (collectedLists o g none none vs).2 ≠ [] := by
        intro hh
        exact hL (by simp [hh])
      have hgood := collectIncludes_good ho ih none none
        (vs.composeInclude.getD []) hcl
      have hv1 : v = joinPipe (collectedLists o g none none vs).1 :=
        (Option.some.injEq _ _ ▸ congrArg Prod.fst hpd).symm ▸ by
          cases hpd
          rfl
      have hd1 : d = joinPipe (collectedLists o g none none vs).2 := by
        cases hpd
        rfl
      rw [hv1, hd1, splitPipe_joinPipe hne1 hgood.2.1,
        splitPipe_joinPipe hne2 hgood.2.2]
      exact hgood.1

/-- C2 (amended): provided no concept code or display reachable through
the oracle contains the pipe character, parse_valueset_to_list returns
either (None, None) or two pipe-joined strings whose pipe-separated
entries are exactly the collected code and description lists of the source
traversal, in order and with equal cardinality.  Without that proviso a
code containing "|" breaks the correspondence (see the counterexample). -/
theorem C2_parallel_lists (o : Oracle) (fuel : Nat) (hdrs : Option Headers)
    (key : Option String) (vs : ValueSet) (ho : CleanOracle o)
    (hvs : CleanVS vs) :
    parse_valueset_to_list o (fuel + 1) hdrs key vs = (none, none) ∨
    ∃ v d, parse_valueset_to_list o (fuel + 1) hdrs key vs = (some v, some d) ∧
      splitPipe v = (collectedLists o fuel hdrs key vs).1 ∧
      splitPipe d = (collectedLists o fuel hdrs key vs).2 ∧
      (splitPipe v).length = (splitPipe d).length := by
  have hpr : parse_valueset_to_list o (fuel + 1) hdrs key vs =
      if (collectedLists o fuel hdrs key vs).1.isEmpty ||
          (collectedLists o fuel hdrs key vs).2.isEmpty then (none, none)
      else (some (joinPipe (collectedLists o fuel hdrs key vs).1),
        some (joinPipe (collectedLists o fuel hdrs key vs).2)) := rfl
  by_cases hL : ((collectedLists o fuel hdrs key vs).1.isEmpty ||
      (collectedLists o fuel hdrs key vs).2.isEmpty) = true
  · left
    rw [hpr, if_pos hL]
  · right
    have hne1 : (collectedLists o fuel hdrs key vs).1 ≠ [] := by
      intro hh
      exact hL (by simp [hh])
    have hne2 : (collectedLists o fuel hdrs key vs).2 ≠ [] := by
      intro hh
      exact hL (by simp [hh])
    have hgood := collectIncludes_good ho (parse_goodParser o ho fuel) hdrs key
      (vs.composeInclude.getD []) hvs
    refine ⟨joinPipe (collectedLists o fuel hdrs key vs).1,
      joinPipe (collectedLists o fuel hdrs key vs).2, ?_, ?_, ?_, ?_⟩
    · rw [hpr, if_neg hL]
    · exact splitPipe_joinPipe hne1 hgood.2.1
    · exact splitPipe_joinPipe hne2 hgood.2.2
    · rw [splitPipe_joinPipe hne1 hgood.2.1, splitPipe_joinPipe hne2 hgood.2.2]
      exact hgood.1

/-- C2 counterexample: a concept whose code contains "|" yields two result
strings whose pipe-separated entry counts differ (2 codes against 1
description), falsifying the claimed 1:1 correspondence. -/
theorem C2_counterexample :
    parse_valueset_to_list ⟨fun _ _ => none, fun _ _ => none⟩ 1 none none
        ⟨some [⟨some [⟨some "a|b", some "d"⟩], none⟩]⟩ = (some "a|b", some "d") ∧
    (splitPipe "a|b").length ≠ (splitPipe "d").length := by
  constructor
  · decide
  · decide

theorem C2_parallel_lists_witness :
    parse_valueset_to_list ⟨fun _ _ => none, fun _ _ => none⟩ 1 none none
        ⟨some [⟨some [⟨some "x", some "y"⟩], none⟩]⟩ = (none, none) ∨
    ∃ v d, parse_valueset_to_list ⟨fun _ _ => none, fun _ _ => none⟩ 1 none none
        ⟨some [⟨some [⟨some "x", some "y"⟩], none⟩]⟩ = (some v, some d) ∧
      splitPipe v = (collectedLists ⟨fun _ _ => none, fun _ _ => none⟩ 0 none none
        ⟨some [⟨some [⟨some "x", some "y"⟩], none⟩]⟩).1 ∧
      splitPipe d = (collectedLists ⟨fun _ _ => none, fun _ _ => none⟩ 0 none none
        ⟨some [⟨some [⟨some "x", some "y"⟩], none⟩]⟩).2 ∧
      (splitPipe v).length = (splitPipe d).length :=
  C2_parallel_lists ⟨fun _ _ => none, fun _ _ => none⟩ 0 none none
    ⟨some [⟨some [⟨some "x", some "y"⟩], none⟩]⟩
    ⟨fun _ _ _ h => Option.noConfusion h, fun _ _ _ h => Option.noConfusion h⟩
    (by unfold CleanVS; decide)

/-! ### Lemmas: fetch events of the recursive resolution -/

theorem mkFetchEvent_none_key (uri : String) (hdrs : Option Headers) (d : Nat) :
    mkFetchEvent uri hdrs none d = ⟨uri, false, hdrs, d⟩ := by
  unfold mkFetchEvent
  simp [apiKeyTruthy]

theorem mkFetchEvent_depth (uri : String) (hdrs : Option Headers)
    (key : Option String) (d : Nat) : (mkFetchEvent uri hdrs key d).depth = d := by
  unfold mkFetchEvent
  split <;> rfl

theorem fetchEventsUris_none_prop {o : Oracle}
    {recEv : ValueSet → List FetchEvent}
    (hR : ∀ vs e, e ∈ recEv vs → e.viaNlm = false ∧ e.headersUsed = none)
    (d : Nat) (uris : List String) :
    ∀ e ∈ fetchEventsUris recEv o none none d uris,
      e.viaNlm = false ∧ e.headersUsed = none := by
  induction uris with
  | nil => simp [fetchEventsUris]
  | cons uri rest ih =>
    intro e he
    simp only [fetchEventsUris, List.mem_append, List.mem_cons] at he
    rcases he with (he | he) | he
    · rw [he, mkFetchEvent_none_key]
      exact ⟨rfl, rfl⟩
    · rcases hf : fetch_valuesetO o uri none none with _ | nested
      · rw [hf] at he
        exact absurd he (List.not_mem_nil e)
      · rw [hf] at he
        exact hR nested e he
    · exact ih e he

theorem fetchEventsInclude_none_prop {o : Oracle}
    {recEv : ValueSet → List FetchEvent}
    (hR : ∀ vs e, e ∈ recEv vs → e.viaNlm = false ∧ e.headersUsed = none)
    (d : Nat) (inc : IncludeElem) :
    ∀ e ∈ fetchEventsInclude recEv o none none d inc,
      e.viaNlm = false ∧ e.headersUsed = none := by
  rcases inc with ⟨c, v⟩
  cases c with
  | some cs => simp [fetchEventsInclude]
  | none =>
    cases v with
    | some uris => exact fetchEventsUris_none_prop hR d uris
    | none => simp [fetchEventsInclude]

theorem fetchEventsIncludes_none_prop {o : Oracle}
    {recEv : ValueSet → List FetchEvent}
    (hR : ∀ vs e, e ∈ recEv vs → e.viaNlm = false ∧ e.headersUsed = none)
    (d : Nat) (incs : List IncludeElem) :
    ∀ e ∈ fetchEventsIncludes recEv o none none d incs,
      e.viaNlm = false ∧ e.headersUsed = none := by
  induction incs with
  | nil => simp [fetchEventsIncludes]
  | cons inc rest ih =>
    intro e he
    simp only [fetchEventsIncludes, List.mem_append] at he
    rcases he with he | he
    · exact fetchEventsInclude_none_prop hR d inc e he
    · exact ih e he

theorem parseFetchEvents_none_prop (o : Oracle) :
    ∀ fuel d vs e, e ∈ parseFetchEvents o fuel d none none vs →
      e.viaNlm = false ∧ e.headersUsed = none := by
  intro fuel
  induction fuel with
  | zero =>
    intro d vs e he
    simp [parseFetchEvents] at he
  | succ g ih =>
    intro d vs e he
    simp only [parseFetchEvents] at he
    exact fetchEventsIncludes_none_prop
      (fun vs2 e2 he2 => ih (d + 1) vs2 e2 he2) d _ e he

theorem mem_fetchEventsUris {o : Oracle} {recEv : ValueSet → List FetchEvent}
    {hdrs : Option Headers} {key : Option String} {d : Nat}
    {uris : List String} {e : FetchEvent}
    (he : e ∈ fetchEventsUris recEv o hdrs key d uris) :
    e.depth = d ∨ ∃ vs, e ∈ recEv vs := by
  induction uris with
  | nil => simp [fetchEventsUris] at he
  | cons uri rest ih =>
    simp only [fetchEventsUris, List.mem_append, List.mem_cons] at he
    rcases he with (he | he) | he
    · left
      rw [he, mkFetchEvent_depth]
    · rcases hf : fetch_valuesetO o uri hdrs key with _ | nested
      · rw [hf] at he
        exact absurd he (List.not_mem_nil e)
      · rw [hf] at he
        exact Or.inr ⟨nested, he⟩
    · exact ih he

theorem mem_fetchEventsInclude {o : Oracle} {recEv : ValueSet → List FetchEvent}
    {hdrs : Option Headers} {key : Option String} {d : Nat}
    {inc : IncludeElem} {e : FetchEvent}
    (he : e ∈ fetchEventsInclude recEv o hdrs key d inc) :
    e.depth = d ∨ ∃ vs, e ∈ recEv vs := by
  rcases inc with ⟨c, v⟩
  cases c with
  | some cs => simp [fetchEventsInclude] at he
  | none =>
    cases v with
    | some uris => exact mem_fetchEventsUris he
    | none => simp [fetchEventsInclude] at he

theorem mem_fetchEventsIncludes {o : Oracle} {recEv : ValueSet → List FetchEvent}
    {hdrs : Option Headers} {key : Option String} {d : Nat}
    {incs : List IncludeElem} {e : FetchEvent}
    (he : e ∈ fetchEventsIncludes recEv o hdrs key d incs) :
    e.depth = d ∨ ∃ vs, e ∈ recEv vs := by
  induction incs with
  | nil => simp [fetchEventsIncludes] at he
  | cons inc rest ih =>
    simp only [fetchEventsIncludes, List.mem_append] at he
    rcases he with he | he
    · exact mem_fetchEventsInclude he
    · exact ih he

/-- C10: every fetch_valueset call that parse_valueset_to_list makes for a
URI at nesting depth two or greater happens inside a recursive call whose
fhir_headers and nlm_api_key were left at their default None, so it takes
the generic FHIR branch (never the authenticated NLM branch) and passes no
headers, whatever URI and API key the top-level call received. -/
theorem C10_nested_fetch_generic (o : Oracle) (fuel : Nat)
    (hdrs : Option Headers) (key : Option String) (vs : ValueSet)
    (e : FetchEvent) (he : e ∈ parseFetchEvents o fuel 1 hdrs key vs)
    (hd : 2 ≤ e.depth) : e.viaNlm = false ∧ e.headersUsed = none := by
  cases fuel with
  | zero => simp [parseFetchEvents] at he
  | succ g =>
    simp only [parseFetchEvents] at he
    rcases mem_fetchEventsIncludes he with hdep | ⟨vs2, he2⟩
    · rw [hdep] at hd
      exact absurd hd (by norm_num)
    · exact parseFetchEvents_none_prop o g 2 vs2 e he2

theorem C10_nested_fetch_generic_witness :
    FetchEvent.viaNlm ⟨"u2", false, none, 2⟩ = false ∧
    FetchEvent.headersUsed ⟨"u2", false, none, 2⟩ = none :=
  C10_nested_fetch_generic
    ⟨fun _ _ => some ⟨some [⟨none, some ["u2"]⟩]⟩, fun _ _ => none⟩ 2 none
    (some "k") ⟨some [⟨none, some ["https://cts.nlm.nih.gov/a"]⟩]⟩
    ⟨"u2", false, none, 2⟩ (by decide) (by decide)

/-! ### Lemmas: extension expansion -/

theorem if_isEmpty_map {α β : Type} (l : List α) (f : α → β) :
    (if l.isEmpty then ([] : List β) else l.map f) = l.map f := by
  cases l <;> simp

/-- C4: extension expansion runs only for rows with a non-missing Slice
Name; it selects exactly the extension rows whose Profile ends with the
slice name and whose Id ends with ".value[x]"; each match yields one row
with variable name parent.extensionId, composite fields computed from the
parent row, and permissible values resolved from the extension row's own
Binding Value Set; no match yields zero rows, not an error.  The
selection and zero-row conjuncts assume every extension row has a
non-missing Profile and Id cell: on a NaN cell pandas would raise on the
NA boolean mask, an error path outside this model. -/
theorem C4_extension_expansion (o : Oracle) (fuel : Nat) (hdrs : Option Headers)
    (key : Option String) (row : Row) (exts : List Row)
    (mappings : List (String × ColsSpec)) (slice : String) :
    (List.lookup "Slice Name" row = some none →
      (process_one_row o fuel hdrs key exts mappings row).length = 1) ∧
    (getCell row "Slice Name" = some slice →
      process_one_row o fuel hdrs key exts mappings row =
        buildResourceRow o fuel hdrs key row mappings ::
          process_extension_rows o fuel row exts hdrs key mappings) ∧
    (getCell row "Slice Name" = some slice →
      (∀ e ∈ exts, (getCell e "Profile").isSome ∧ (getCell e "Id").isSome) →
      process_extension_rows o fuel row exts hdrs key mappings =
        (exts.filter (fun e =>
            (getCell e "Profile").any (fun p => strEndsWith p slice) &&
            (getCell e "Id").any (fun i => strEndsWith i ".value[x]"))).map
          (fun e =>
            ("variable name", some (create_variable_name row ++ "." ++
              strOfCell (getCell e "Id"))) ::
              mapRowFields row mappings ++
                pvEntries (resolvePV o fuel hdrs key
                  (getCell e "Binding Value Set")))) ∧
    (getCell row "Slice Name" = some slice →
      (∀ e ∈ exts, (getCell e "Profile").isSome ∧ (getCell e "Id").isSome) →
      exts.filter (fun e =>
          (getCell e "Profile").any (fun p => strEndsWith p slice) &&
          (getCell e "Id").any (fun i => strEndsWith i ".value[x]")) = [] →
      process_extension_rows o fuel row exts hdrs key mappings = []) := by
  refine ⟨?_, ?_, ?_, ?_⟩
  · intro h
    simp [process_one_row, getCell, h]
  · intro h
    simp [process_one_row, h]
  · intro h hpres
    simp only [process_extension_rows, h, strOfCell]
    rw [if_isEmpty_map, List.filter_filter]
    have hsw : exts.filter (fun e =>
        (getCell e "Id").any (fun i => strEndsWith i ".value[x]") &&
        (getCell e "Profile").any (fun p => strEndsWith p slice)) =
      exts.filter (fun e =>
        (getCell e "Profile").any (fun p => strEndsWith p slice) &&
        (getCell e "Id").any (fun i => strEndsWith i ".value[x]")) :=
      List.filter_congr (fun a _ => Bool.and_comm _ _)
    rw [hsw]
    rfl
  · intro h hpres hfil
    simp only [process_extension_rows, h, strOfCell]
    rw [List.filter_filter]
    have hsw : exts.filter (fun e =>
        (getCell e "Id").any (fun i => strEndsWith i ".value[x]") &&
        (getCell e "Profile").any (fun p => strEndsWith p slice)) =
      exts.filter (fun e =>
        (getCell e "Profile").any (fun p => strEndsWith p slice) &&
        (getCell e "Id").any (fun i => strEndsWith i ".value[x]")) :=
      List.filter_congr (fun a _ => Bool.and_comm _ _)
    rw [hsw, hfil]
    rfl

theorem C4_extension_expansion_witness :
    (process_one_row ⟨fun _ _ => none, fun _ _ => none⟩ 0 none none
        [[("Profile", some "a.sl"), ("Id", some "E.value[x]"),
          ("Binding Value Set", none)]] []
        [("Slice Name", none), ("Path", some "P")]).length = 1 ∧
    process_one_row ⟨fun _ _ => none, fun _ _ => none⟩ 0 none none
        [[("Profile", some "a.sl"), ("Id", some "E.value[x]"),
          ("Binding Value Set", none)]] []
        [("Path", some "P"), ("Slice Name", some "sl")] =
      buildResourceRow ⟨fun _ _ => none, fun _ _ => none⟩ 0 none none
          [("Path", some "P"), ("Slice Name", some "sl")] [] ::
        process_extension_rows ⟨fun _ _ => none, fun _ _ => none⟩ 0
          [("Path", some "P"), ("Slice Name", some "sl")]
          [[("Profile", some "a.sl"), ("Id", some "E.value[x]"),
            ("Binding Value Set", none)]] none none [] ∧
    process_extension_rows ⟨fun _ _ => none, fun _ _ => none⟩ 0
        [("Path", some "P"), ("Slice Name", some "sl")]
        [[("Profile", some "a.sl"), ("Id", some "E.value[x]"),
          ("Binding Value Set", none)]] none none [] =
      (([[("Profile", some "a.sl"), ("Id", some "E.value[x]"),
          ("Binding Value Set", none)]] : List Row).filter (fun e =>
          (getCell e "Profile").any (fun p => strEndsWith p "sl") &&
          (getCell e "Id").any (fun i => strEndsWith i ".value[x]"))).map
        (fun e =>
          ("variable name", some (create_variable_name
              [("Path", some "P"), ("Slice Name", some "sl")] ++ "." ++
            strOfCell (getCell e "Id"))) ::
            mapRowFields [("Path", some "P"), ("Slice Name", some "sl")] [] ++
              pvEntries (resolvePV ⟨fun _ _ => none, fun _ _ => none⟩ 0 none none
                (getCell e "Binding Value Set"))) ∧
    process_extension_rows ⟨fun _ _ => none, fun _ _ => none⟩ 0
        [("Path", some "P"), ("Slice Name", some "sl")]
        [[("Profile", some "other"), ("Id", some "E.value[x]")]] none none [] = [] := by
  refine ⟨?_, ?_, ?_, ?_⟩
  · exact (C4_extension_expansion ⟨fun _ _ => none, fun _ _ => none⟩ 0 none none
      [("Slice Name", none), ("Path", some "P")]
      [[("Profile", some "a.sl"), ("Id", some "E.value[x]"),
        ("Binding Value Set", none)]] [] "sl").1 (by decide)
  · exact (C4_extension_expansion ⟨fun _ _ => none, fun _ _ => none⟩ 0 none none
      [("Path", some "P"), ("Slice Name", some "sl")]
      [[("Profile", some "a.sl"), ("Id", some "E.value[x]"),
        ("Binding Value Set", none)]] [] "sl").2.1 (by decide)
  · exact (C4_extension_expansion ⟨fun _ _ => none, fun _ _ => none⟩ 0 none none
      [("Path", some "P"), ("Slice Name", some "sl")]
      [[("Profile", some "a.sl"), ("Id", some "E.value[x]"),
        ("Binding Value Set", none)]] [] "sl").2.2.1 (by decide)
      (by
        intro e he
        simp only [List.mem_singleton] at he
        subst he
        exact ⟨by decide, by decide⟩)
  · exact (C4_extension_expansion ⟨fun _ _ => none, fun _ _ => none⟩ 0 none none
      [("Path", some "P"), ("Slice Name", some "sl")]
      [[("Profile", some "other"), ("Id", some "E.value[x]")]] [] "sl").2.2.2
      (by decide)
      (by
        intro e he
        simp only [List.mem_singleton] at he
        subst he
        exact ⟨by decide, by decide⟩)
      (by decide)

/-! ### Lemmas: merge_with_template and the save stage of main -/

/-- C6: merge_with_template raises exactly when some mapped column is
missing from the template columns, and in main this raise happens before
the output CSV is written (the .raised outcome carries no written file);
otherwise the merged frame keeps the template columns and lists the
template's rows first, in order, followed by the mapped rows. -/
theorem C6_merge_template (name : String) (mapped tmpl : DF) :
    ((∃ c ∈ mapped.cols, c ∉ tmpl.cols) →
      ∃ msg, main_merge_and_save name mapped tmpl = .raised msg) ∧
    ((∀ c ∈ mapped.cols, c ∈ tmpl.cols) →
      main_merge_and_save name mapped tmpl =
        .wrote ("fhir_to_brics/output/" ++ name ++ "_des.csv")
          ⟨tmpl.cols, tmpl.rows ++ mapped.rows⟩) := by
  constructor
  · rintro ⟨c, hc, hnc⟩
    have hne : mapped.cols.find? (fun c => !(tmpl.cols.contains c)) ≠ none := by
      intro hnone
      rw [List.find?_eq_none] at hnone
      exact hnone c hc (by simp [hnc])
    rcases hfound : mapped.cols.find? (fun c => !(tmpl.cols.contains c)) with _ | c2
    · exact absurd hfound hne
    · exact ⟨"Column " ++ c2 ++ " in df_mapped is not in de_template.",
        by simp only [main_merge_and_save, merge_with_template, hfound]⟩
  · intro hall
    have hnone : mapped.cols.find? (fun c => !(tmpl.cols.contains c)) = none := by
      rw [List.find?_eq_none]
      intro x hx
      simp [hall x hx]
    have hfil : mapped.cols.filter (fun c => !(tmpl.cols.contains c)) = [] := by
      rw [List.filter_eq_nil_iff]
      intro x hx
      simp [hall x hx]
    simp only [main_merge_and_save, merge_with_template, hnone, hfil,
      List.append_nil]

theorem C6_merge_template_witness :
    (∃ msg, main_merge_and_save "patient" ⟨["x", "zz"], []⟩ ⟨["x", "y"], []⟩ =
      .raised msg) ∧
    main_merge_and_save "patient" ⟨["x"], [[("x", some "2")]]⟩
        ⟨["x", "y"], [[("x", some "1")]]⟩ =
      .wrote ("fhir_to_brics/output/" ++ "patient" ++ "_des.csv")
        ⟨["x", "y"], [[("x", some "1")]] ++ [[("x", some "2")]]⟩ := by
  constructor
  · exact (C6_merge_template "patient" ⟨["x", "zz"], []⟩ ⟨["x", "y"], []⟩).1
      ⟨"zz", by decide, by decide⟩
  · exact (C6_merge_template "patient" ⟨["x"], [[("x", some "2")]]⟩
      ⟨["x", "y"], [[("x", some "1")]]⟩).2 (by decide)

/-! ### Claims C1 and C5: the Net-level fetchers -/

/-- C1 counterexample: when the GET succeeds but the body fails to decode,
json.loads raises a decode error (a ValueError) that the
except-RequestException clause does not catch, so fetch_fhir_valueset
raises instead of returning None — against the claim that any HTTP or
decode failure yields None. -/
theorem C1_counterexample :
    fetch_fhir_valueset
        ⟨fun _ _ => .success "not json", fun _ => .error .jsonDecodeError⟩
        "http://example.org/vs" none = .error .jsonDecodeError ∧
    (Except.error PyExn.jsonDecodeError :
        Except PyExn (Option ValueSet)) ≠ .ok none := by
  constructor
  · rfl
  · intro h
    exact Except.noConfusion h

/-- C1 (amended): a raised RequestException during the GET (connection
error, timeout, or raise_for_status) makes fetch_fhir_valueset and
fetch_nlm_valueset return None rather than raise; the only exception that
escapes either fetcher is a JSON-decode failure of a successfully fetched
body, which is not caught and propagates past the resolver boundary. -/
theorem C1_http_failures_return_none (net : Net) (uri : String)
    (hdrs : Option Headers) (key : String) (e : PyExn) :
    (net.get uri hdrs = .requestError →
      fetch_fhir_valueset net uri hdrs = .ok none) ∧
    (net.get uri (some (nlmAuthHeader key)) = .requestError →
      fetch_nlm_valueset net uri key = .ok none) ∧
    (fetch_fhir_valueset net uri hdrs = .error e →
      ∃ t, net.get uri hdrs = .success t ∧ net.jsonLoads t = .error e) ∧
    (fetch_nlm_valueset net uri key = .error e →
      ∃ t, net.get uri (some (nlmAuthHeader key)) = .success t ∧
        net.jsonLoads t = .error e) := by
  refine ⟨?_, ?_, ?_, ?_⟩
  · intro h
    simp [fetch_fhir_valueset, h]
  · intro h
    simp [fetch_nlm_valueset, h]
  · intro h
    unfold fetch_fhir_valueset at h
    rcases hg : net.get uri hdrs with _ | t
    · simp only [hg] at h
      exact Except.noConfusion h
    · simp only [hg] at h
      rcases hj : net.jsonLoads t with e2 | v
      · simp only [hj] at h
        cases h
        exact ⟨t, rfl, hj⟩
      · simp only [hj] at h
        exact Except.noConfusion h
  · intro h
    unfold fetch_nlm_valueset at h
    rcases hg : net.get uri (some (nlmAuthHeader key)) with _ | t
    · simp only [hg] at h
      exact Except.noConfusion h
    · simp only [hg] at h
      rcases hj : net.jsonLoads t with e2 | v
      · simp only [hj] at h
        cases h
        exact ⟨t, rfl, hj⟩
      · simp only [hj] at h
        exact Except.noConfusion h

theorem C1_http_failures_return_none_witness :
    fetch_fhir_valueset
        ⟨fun _ _ => .requestError, fun _ => .error .jsonDecodeError⟩
        "http://example.org/vs" none = .ok none ∧
    fetch_nlm_valueset
        ⟨fun _ _ => .requestError, fun _ => .error .jsonDecodeError⟩
        "http://example.org/vs" "k" = .ok none ∧
    (∃ t, Net.get ⟨fun _ _ => .success "oops", fun _ => .error .jsonDecodeError⟩
          "http://example.org/vs" none = .success t ∧
        Net.jsonLoads ⟨fun _ _ => .success "oops", fun _ => .error .jsonDecodeError⟩
          t = .error .jsonDecodeError) ∧
    (∃ t, Net.get ⟨fun _ _ => .success "oops", fun _ => .error .jsonDecodeError⟩
          "http://example.org/vs" (some (nlmAuthHeader "k")) = .success t ∧
        Net.jsonLoads ⟨fun _ _ => .success "oops", fun _ => .error .jsonDecodeError⟩
          t = .error .jsonDecodeError) :=
  ⟨(C1_http_failures_return_none
      ⟨fun _ _ => .requestError, fun _ => .error .jsonDecodeError⟩
      "http://example.org/vs" none "k" .jsonDecodeError).1 rfl,
    (C1_http_failures_return_none
      ⟨fun _ _ => .requestError, fun _ => .error .jsonDecodeError⟩
      "http://example.org/vs" none "k" .jsonDecodeError).2.1 rfl,
    (C1_http_failures_return_none
      ⟨fun _ _ => .success "oops", fun _ => .error .jsonDecodeError⟩
      "http://example.org/vs" none "k" .jsonDecodeError).2.2.1 rfl,
    (C1_http_failures_return_none
      ⟨fun _ _ => .success "oops", fun _ => .error .jsonDecodeError⟩
      "http://example.org/vs" none "k" .jsonDecodeError).2.2.2 rfl⟩

/-- C5 counterexample: (i) for a URI whose host IS the NLM terminology
domain but with api_key None, fetch_valueset takes the generic branch (the
probe returns the no-auth answer B, while the NLM fetch would return A);
(ii) for a URI that merely contains "cts.nlm.nih.gov" in its path (host
example.org) with a truthy key, fetch_valueset takes the NLM branch.  Both
contradict "dispatches to the NLM-specific fetch exactly when the URI's
host is the NLM terminology domain". -/
theorem C5_counterexample :
    fetch_valueset netProbe "https://cts.nlm.nih.gov/fhir/ValueSet/x"
        (some [("Accept", "application/fhir+json")]) none =
      .ok (some ⟨none⟩) ∧
    fetch_nlm_valueset netProbe "https://cts.nlm.nih.gov/fhir/ValueSet/x" "k" =
      .ok (some ⟨some []⟩) ∧
    (⟨none⟩ : ValueSet) ≠ ⟨some []⟩ ∧
    fetch_valueset netProbe "https://example.org/doc/cts.nlm.nih.gov" none
        (some "k") = .ok (some ⟨some []⟩) := by
  refine ⟨?_, ?_, ?_, ?_⟩
  · rfl
  · rfl
  · decide
  · rfl

/-- C5 (amended): fetch_valueset dispatches to the NLM-specific fetch
exactly when "cts.nlm.nih.gov" occurs as a substring anywhere in the URI
AND the api key is truthy (neither None nor empty); the NLM branch
performs the GET with a basic-auth Authorization header built from the
key, while the generic branch performs the GET with the caller-supplied
headers, adding no authorization. -/
theorem C5_dispatch (net : Net) (uri : String) (hdrs : Option Headers)
    (key : Option String) :
    ((containsNlm uri && apiKeyTruthy key) = true →
      fetch_valueset net uri hdrs key =
        match net.get uri (some [("Authorization",
            "Basic " ++ base64Encode ("apikey:" ++ key.getD ""))]) with
        | .requestError => Except.ok none
        | .success t =>
          match net.jsonLoads t with
          | .ok v => .ok (some v)
          | .error e2 => .error e2) ∧
    ((containsNlm uri && apiKeyTruthy key) = false →
      fetch_valueset net uri hdrs key =
        match net.get uri hdrs with
        | .requestError => Except.ok none
        | .success t =>
          match net.jsonLoads t with
          | .ok v => .ok (some v)
          | .error e2 => .error e2) := by
  constructor
  · intro h
    unfold fetch_valueset
    rw [if_pos h]
    rfl
  · intro h
    unfold fetch_valueset
    rw [if_neg (by simp [h])]
    rfl

theorem C5_dispatch_witness :
    fetch_valueset ⟨fun _ _ => .requestError, fun _ => .error .jsonDecodeError⟩
        "https://cts.nlm.nih.gov/x" none (some "k") = .ok none ∧
    fetch_valueset ⟨fun _ _ => .requestError, fun _ => .error .jsonDecodeError⟩
        "https://cts.nlm.nih.gov/x" none none = .ok none := by
  constructor
  · have h := (C5_dispatch
      ⟨fun _ _ => .requestError, fun _ => .error .jsonDecodeError⟩
      "https://cts.nlm.nih.gov/x" none (some "k")).1 (by decide)
    rw [h]
  · have h := (C5_dispatch
      ⟨fun _ _ => .requestError, fun _ => .error .jsonDecodeError⟩
      "https://cts.nlm.nih.gov/x" none none).2 (by decide)
    rw [h]
